import Mathlib

/-!
Shallow embedding of the quantitative calculation core of the
investment-strategy repository (scripts/calculators/): the rebalancer,
the phase detector, the position sizer and the risk metrics.

Modelling conventions:
* Python floats are modelled exactly: by `ℚ` where the code uses only
  field operations and comparisons (rebalancer.py, phase_detector.py,
  position_sizer.py, and the drawdown scan of risk_metrics.py), and by
  `ℝ` where the code takes roots and real powers (Sharpe, Sortino, CAGR).
  In this exact-arithmetic model every value is finite, so the code's
  `math.isfinite` guards are vacuously true and drop out; the only
  non-finite value the code can produce is the explicit `float("inf")`
  sentinel, modelled by the constructor `FVal.posInf`.
* Python dicts of weights are association lists in insertion order;
  `dict.get(k, 0.0) or 0.0` is `getW`.
* Python's `sorted` / `list.sort` (a stable sort) is modelled by the
  stable insertion sort `stableSort`.
-/

namespace Invest

/-- rebalancer.py: the module constant `_EPS = 1e-12`. -/
def EPS : ℚ := 1 / 10 ^ 12

/-- Insert `x` into `s` in front of the first element `y` with `le x y`;
the insertion step of a stable insertion sort. -/
def insSorted {α : Type} (le : α → α → Bool) (x : α) : List α → List α
  | [] => [x]
  | y :: ys => if le x y then x :: y :: ys else y :: insSorted le x ys

/-- Stable sort by the Bool relation `le`: elements that compare equal keep
their original relative order.  Models Python's stable `sorted`/`list.sort`. -/
def stableSort {α : Type} (le : α → α → Bool) : List α → List α
  | [] => []
  | x :: xs => insSorted le x (stableSort le xs)

/-- Ascending comparison used for Python's `sorted` over string keys. -/
def strLe (a b : String) : Bool := !decide (b < a)

/-- A Python weight dict, in insertion order. -/
abbrev Weights := List (String × ℚ)

/-- rebalancer.py: `d.get(asset, 0.0) or 0.0` — the weight stored under a
key, `0` when the key is absent. -/
def getW (m : Weights) (k : String) : ℚ :=
  match m.find? (fun p => p.1 == k) with
  | some p => p.2
  | none => 0

/-- rebalancer.py: `sorted(set(current.keys()) | set(target.keys()))` —
the union of the two key sets, in ascending string order. -/
def unionKeys (current target : Weights) : List String :=
  stableSort strLe ((current.map Prod.fst ++ target.map Prod.fst).dedup)

/-- One row of `check_allocation_drift`'s result list. -/
structure DriftRecord where
  asset : String
  action : String
  amount : ℚ
  current_weight : ℚ
  target_weight : ℚ
  drift : ℚ
  deriving DecidableEq, Repr

/-- The loop body of `check_allocation_drift`: the record built for one
asset of the key union, `none` when the drift is inside the threshold. -/
def driftRecordAt (current target : Weights) (thr : ℚ) (asset : String) :
    Option DriftRecord :=
  let current_w := getW current asset
  let target_w := getW target asset
  let drift := current_w - target_w
  if |drift| + EPS < max thr 0 then none
  else some ⟨asset, if 0 < drift then "sell" else "buy", |drift|,
             current_w, target_w, drift⟩

/-- rebalancer.py `check_allocation_drift`.  The Python `threshold=None`
(and only that representable degenerate case; a non-finite float threshold
has no exact-arithmetic counterpart) is the `none` argument, replaced by
the default `0.05`.  The result rows are sorted descending by `abs(drift)`
with Python's stable sort. -/
def check_allocation_drift (current target : Weights) (threshold : Option ℚ) :
    List DriftRecord :=
  let threshold_value := threshold.getD (5 / 100)
  let results :=
    (unionKeys current target).filterMap (driftRecordAt current target threshold_value)
  stableSort (fun x y => decide (|y.drift| ≤ |x.drift|)) results

/-- One row of `calculate_rebalance_trades`'s result list. -/
structure TradeRecord where
  asset : String
  action : String
  amount : ℚ
  current_value : ℚ
  target_value : ℚ
  trade_value : ℚ
  deriving DecidableEq, Repr

/-- The loop body of `calculate_rebalance_trades`: the trade built for one
asset of the key union, `none` when `abs(trade_value) <= _EPS`. -/
def tradeRecordAt (pv : ℚ) (current target : Weights) (asset : String) :
    Option TradeRecord :=
  let current_w := getW current asset
  let target_w := getW target asset
  let current_value := pv * current_w
  let target_value := pv * target_w
  let trade_value := target_value - current_value
  if |trade_value| ≤ EPS then none
  else some ⟨asset, if 0 < trade_value then "buy" else "sell", |trade_value|,
             current_value, target_value, trade_value⟩

/-- rebalancer.py `calculate_rebalance_trades`.  A non-positive portfolio
value yields the empty list; the rows are sorted descending by the trade
amount with Python's stable sort. -/
def calculate_rebalance_trades (portfolio_value : ℚ) (current target : Weights) :
    List TradeRecord :=
  if portfolio_value ≤ 0 then []
  else
    stableSort (fun x y => decide (y.amount ≤ x.amount))
      ((unionKeys current target).filterMap (tradeRecordAt portfolio_value current target))

/-- phase_detector.py `detect_phase`.  The `math.isfinite` guards are
vacuous in exact arithmetic. -/
def detect_phase (ef_balance ef_target : ℚ) : ℤ :=
  if ef_target ≤ 0 then 2
  else if ef_balance < ef_target then 1 else 2

/-- phase_detector.py `_PHASE_1_TARGET`. -/
def PHASE_1_TARGET : Weights :=
  [("ef", 80 / 100), ("stocks", 10 / 100), ("crypto", 10 / 100)]

/-- phase_detector.py `_PHASE_2_TARGET`. -/
def PHASE_2_TARGET : Weights :=
  [("ef", 20 / 100), ("stocks", 50 / 100), ("crypto", 20 / 100), ("bonds", 10 / 100)]

/-- phase_detector.py `get_allocation_target`; the `ValueError` raised for
a phase other than 1 or 2 is the `Except.error` value. -/
def get_allocation_target (phase : ℤ) : Except String Weights :=
  if phase = 1 then .ok PHASE_1_TARGET
  else if phase = 2 then .ok PHASE_2_TARGET
  else .error "phase must be 1 or 2"

/-- numpy `np.clip(x, lo, hi)` for `lo ≤ hi`. -/
def clipQ (x lo hi : ℚ) : ℚ := min hi (max lo x)

/-- position_sizer.py `kelly_criterion` (the `math.isfinite` guards are
vacuous in exact arithmetic). -/
def kelly_criterion (win_rate win_loss_ratio : ℚ) : ℚ :=
  let p := clipQ win_rate 0 1
  if win_loss_ratio ≤ 0 then 0
  else
    let full_kelly := p - (1 - p) / win_loss_ratio
    let half_kelly := (1 / 2) * full_kelly
    clipQ half_kelly 0 1

/-- The loop state of risk_metrics.py `calculate_max_drawdown`. -/
structure DDState where
  runningPeak : ℚ
  runningPeakIdx : ℕ
  bestDd : ℚ
  bestPeakIdx : ℕ
  bestTroughIdx : ℕ
  deriving DecidableEq, Repr

/-- One iteration of the drawdown scan at index `i` with value `val`:
update the running peak, compute `dd = 1 - val/peak` (0 when the peak is
non-positive) and record a new best drawdown. -/
def ddStep (s : DDState) (i : ℕ) (val : ℚ) : DDState :=
  let rp := if s.runningPeak < val then val else s.runningPeak
  let rpi := if s.runningPeak < val then i else s.runningPeakIdx
  let dd := if 0 < rp then 1 - val / rp else 0
  if s.bestDd < dd then ⟨rp, rpi, dd, rpi, i⟩
  else ⟨rp, rpi, s.bestDd, s.bestPeakIdx, s.bestTroughIdx⟩

/-- The `for i in range(n)` loop of `calculate_max_drawdown`, indices
starting at `i`. -/
def ddLoop (s : DDState) (i : ℕ) : List ℚ → DDState
  | [] => s
  | v :: rest => ddLoop (ddStep s i v) (i + 1) rest

/-- risk_metrics.py `calculate_max_drawdown`. -/
def calculate_max_drawdown (values : List ℚ) : ℚ × ℤ × ℤ :=
  match values with
  | [] => (0, -1, -1)
  | [_] => (0, 0, 0)
  | v0 :: rest =>
    let f := ddLoop ⟨v0, 0, 0, 0, 0⟩ 0 (v0 :: rest)
    (f.bestDd, (f.bestPeakIdx : ℤ), (f.bestTroughIdx : ℤ))

/-- A Python float result in the exact-arithmetic model: a finite real, or
the explicit sentinel `float("inf")` that `calculate_sharpe_ratio` and
`calculate_sortino_ratio` return on zero volatility with positive edge. -/
inductive FVal where
  | fin (x : ℝ)
  | posInf

/-- Whether an `FVal` is a finite number. -/
def FVal.isFinite : FVal → Prop
  | .fin _ => True
  | .posInf => False

/-- risk_metrics.py: the module constant `TRADING_DAYS_PER_YEAR = 252`. -/
def TRADING_DAYS_PER_YEAR : ℕ := 252

/-- risk_metrics.py `_annual_to_periodic_rate` (the `math.isfinite` guards
are vacuous in exact arithmetic; the integer period count is a `ℕ`, so the
code's `periods_per_year <= 0` is `= 0`). -/
noncomputable def annual_to_periodic_rate (annual_rate : ℝ) (periods_per_year : ℕ) : ℝ :=
  if periods_per_year = 0 then 0
  else if annual_rate ≤ -1 then 0
  else (1 + annual_rate) ^ ((1 : ℝ) / (periods_per_year : ℝ)) - 1

/-- numpy `np.mean` over a 1-D array. -/
noncomputable def meanR (l : List ℝ) : ℝ := l.sum / (l.length : ℝ)

/-- numpy `np.std(l, ddof=1)`: the Bessel-corrected sample standard
deviation, `sqrt(sum((x - mean)^2) / (N - 1))`. -/
noncomputable def stdSample (l : List ℝ) : ℝ :=
  Real.sqrt ((l.map (fun x => (x - meanR l) ^ 2)).sum / ((l.length : ℝ) - 1))

/-- risk_metrics.py `calculate_sortino_ratio` lines 124-125:
`sqrt(mean(square(minimum(0, l))))`, the downside deviation with the
population denominator `N`. -/
noncomputable def downsideDev (l : List ℝ) : ℝ :=
  Real.sqrt ((l.map (fun x => min 0 x ^ 2)).sum / (l.length : ℝ))

/-- risk_metrics.py: `excess = r - rf_periodic`, elementwise. -/
noncomputable def excessList (returns : List ℝ) (rf_periodic : ℝ) : List ℝ :=
  returns.map (fun x => x - rf_periodic)

/-- risk_metrics.py `calculate_sharpe_ratio` (the `math.isfinite` guard on
the mean and standard deviation is vacuous in exact arithmetic). -/
noncomputable def calculate_sharpe_ratio (returns : List ℝ) (risk_free_rate : ℝ) : FVal :=
  if returns.length < 2 then .fin 0
  else
    let rf_periodic := annual_to_periodic_rate risk_free_rate TRADING_DAYS_PER_YEAR
    let excess := excessList returns rf_periodic
    let mean_excess := meanR excess
    let std_excess := stdSample excess
    if std_excess = 0 then (if 0 < mean_excess then .posInf else .fin 0)
    else .fin (Real.sqrt (TRADING_DAYS_PER_YEAR : ℝ) * mean_excess / std_excess)

/-- risk_metrics.py `calculate_sortino_ratio` (the `math.isfinite` guard is
vacuous in exact arithmetic). -/
noncomputable def calculate_sortino_ratio (returns : List ℝ) (risk_free_rate : ℝ) : FVal :=
  if returns.length < 2 then .fin 0
  else
    let rf_periodic := annual_to_periodic_rate risk_free_rate TRADING_DAYS_PER_YEAR
    let excess := excessList returns rf_periodic
    let mean_excess := meanR excess
    let downside_dev := downsideDev excess
    if downside_dev = 0 then (if 0 < mean_excess then .posInf else .fin 0)
    else .fin (Real.sqrt (TRADING_DAYS_PER_YEAR : ℝ) * mean_excess / downside_dev)

/-- risk_metrics.py `calculate_cagr` (the `math.isfinite` guards are
vacuous in exact arithmetic). -/
noncomputable def calculate_cagr (start_value end_value years : ℝ) : FVal :=
  if start_value ≤ 0 ∨ end_value ≤ 0 ∨ years ≤ 0 then .fin 0
  else .fin ((end_value / start_value) ^ ((1 : ℝ) / years) - 1)

/-- risk_metrics.py `calculate_volatility` (the `math.isfinite` guard is
vacuous in exact arithmetic). -/
noncomputable def calculate_volatility (returns : List ℝ) : FVal :=
  if returns.length < 2 then .fin 0
  else .fin (stdSample returns * Real.sqrt (TRADING_DAYS_PER_YEAR : ℝ))

/-! ## Helper lemmas about the stable sort -/

theorem insSorted_perm {α : Type} (le : α → α → Bool) (x : α) :
    ∀ s : List α, (insSorted le x s).Perm (x :: s) := by
  intro s
  induction s with
  | nil => rfl
  | cons y ys ih =>
    by_cases h : le x y = true
    · simp [insSorted, h]
    · have h' : le x y = false := by simpa using h
      simp only [insSorted, h', Bool.false_eq_true, if_false]
      exact (ih.cons y).trans (List.Perm.swap x y ys)

theorem stableSort_perm {α : Type} (le : α → α → Bool) :
    ∀ l : List α, (stableSort le l).Perm l := by
  intro l
  induction l with
  | nil => rfl
  | cons x xs ih =>
    exact (insSorted_perm le x (stableSort le xs)).trans (ih.cons x)

theorem pairwise_insSorted {α : Type} {le : α → α → Bool} {R : α → α → Prop}
    (htrans : ∀ a b c, R a b → R b c → R a c) (x : α) :
    ∀ s : List α, s.Pairwise R →
      (∀ y ∈ s, (le x y = true → R x y) ∧ (le x y = false → R y x)) →
      (insSorted le x s).Pairwise R := by
  intro s
  induction s with
  | nil => intro _ _; simp [insSorted]
  | cons y ys ih =>
    intro hp hx
    rw [List.pairwise_cons] at hp
    obtain ⟨hy, hys⟩ := hp
    by_cases h : le x y = true
    · simp only [insSorted, h, if_true]
      refine List.Pairwise.cons ?_ (List.Pairwise.cons hy hys)
      intro z hz
      rcases List.mem_cons.mp hz with rfl | hz
      · exact (hx z (List.mem_cons_self _ _)).1 h
      · exact htrans x y z ((hx y (List.mem_cons_self _ _)).1 h) (hy z hz)
    · have h' : le x y = false := by simpa using h
      simp only [insSorted, h', Bool.false_eq_true, if_false]
      refine List.Pairwise.cons ?_ (ih hys ?_)
      · intro z hz
        rcases List.mem_cons.mp ((insSorted_perm le x ys).mem_iff.mp hz) with rfl | hz
        · exact (hx y (List.mem_cons_self _ _)).2 h'
        · exact hy z hz
      · intro z hz
        exact hx z (List.mem_cons_of_mem y hz)

theorem pairwise_stableSort {α : Type} {le : α → α → Bool} {R Q : α → α → Prop}
    (htrans : ∀ a b c, R a b → R b c → R a c)
    (hc : ∀ a b, Q a b → (le a b = true → R a b) ∧ (le a b = false → R b a)) :
    ∀ l : List α, l.Pairwise Q → (stableSort le l).Pairwise R := by
  intro l
  induction l with
  | nil => intro _; simp [stableSort]
  | cons x xs ih =>
    intro hp
    rw [List.pairwise_cons] at hp
    obtain ⟨hx, hxs⟩ := hp
    refine pairwise_insSorted htrans x _ (ih hxs) ?_
    intro y hy
    exact hc x y (hx y ((stableSort_perm le xs).mem_iff.mp hy))

theorem mem_unionKeys (current target : Weights) (a : String) :
    a ∈ unionKeys current target ↔
      a ∈ current.map Prod.fst ∨ a ∈ target.map Prod.fst := by
  unfold unionKeys
  rw [(stableSort_perm _ _).mem_iff, List.mem_dedup, List.mem_append]

theorem unionKeys_sorted (current target : Weights) :
    (unionKeys current target).Pairwise (· < ·) := by
  unfold unionKeys
  refine pairwise_stableSort (Q := fun a b => a ≠ b) ?_ ?_ _
    (List.nodup_dedup _)
  · exact fun a b c => lt_trans
  · intro a b hne
    constructor
    · intro h
      have hba : ¬ b < a := by simpa [strLe] using h
      exact lt_of_le_of_ne (not_lt.mp hba) hne
    · intro h
      simpa [strLe] using h

/-! ## Helper lemmas about the drawdown scan -/

theorem ddStep_facts (s : DDState) (i : ℕ) (val : ℚ)
    (h0 : 0 ≤ s.bestDd) (h1 : s.runningPeakIdx ≤ i) (h2 : s.bestTroughIdx ≤ i)
    (h3 : s.bestPeakIdx ≤ s.bestTroughIdx) :
    0 ≤ (ddStep s i val).bestDd ∧ (ddStep s i val).runningPeakIdx ≤ i ∧
    (ddStep s i val).bestTroughIdx ≤ i ∧
    (ddStep s i val).bestPeakIdx ≤ (ddStep s i val).bestTroughIdx := by
  unfold ddStep
  dsimp only
  split_ifs <;>
    refine ⟨?_, ?_, ?_, ?_⟩ <;> dsimp only <;>
    first
      | exact h0
      | exact h1
      | exact h2
      | exact h3
      | exact Nat.le_refl i
      | linarith

theorem ddLoop_inv : ∀ (v : List ℚ) (i : ℕ) (s : DDState),
    0 ≤ s.bestDd → s.runningPeakIdx ≤ i → s.bestTroughIdx ≤ i →
    s.bestPeakIdx ≤ s.bestTroughIdx →
    0 ≤ (ddLoop s i v).bestDd ∧
    (ddLoop s i v).bestPeakIdx ≤ (ddLoop s i v).bestTroughIdx ∧
    (v ≠ [] → (ddLoop s i v).bestTroughIdx + 1 ≤ i + v.length) := by
  intro v
  induction v with
  | nil =>
    intro i s h0 _ _ h3
    exact ⟨h0, h3, fun h => absurd rfl h⟩
  | cons val rest ih =>
    intro i s h0 h1 h2 h3
    obtain ⟨k0, k1, k2, k3⟩ := ddStep_facts s i val h0 h1 h2 h3
    have hres := ih (i + 1) (ddStep s i val) k0 (le_trans k1 (Nat.le_succ i))
      (le_trans k2 (Nat.le_succ i)) k3
    have hloop : ddLoop s i (val :: rest) = ddLoop (ddStep s i val) (i + 1) rest := rfl
    rw [hloop]
    refine ⟨hres.1, hres.2.1, ?_⟩
    intro _
    cases rest with
    | nil =>
      have : ddLoop (ddStep s i val) (i + 1) [] = ddStep s i val := rfl
      rw [this]
      simpa using Nat.succ_le_succ k2
    | cons w ws =>
      have hlen := hres.2.2 (List.cons_ne_nil w ws)
      simp only [List.length_cons] at hlen ⊢
      omega

theorem ddLoop_dd_le_one : ∀ (v : List ℚ) (i : ℕ) (s : DDState),
    s.bestDd ≤ 1 → (∀ x ∈ v, 0 ≤ x) → (ddLoop s i v).bestDd ≤ 1 := by
  intro v
  induction v with
  | nil => intro i s h _; exact h
  | cons val rest ih =>
    intro i s h hx
    have hval : 0 ≤ val := hx val (List.mem_cons_self _ _)
    refine ih (i + 1) (ddStep s i val) ?_ (fun x hx' => hx x (List.mem_cons_of_mem _ hx'))
    unfold ddStep
    dsimp only
    split_ifs <;> dsimp only <;>
      first
        | exact h
        | linarith
        | { rename_i hrp hdd
            have hq := div_nonneg hval (le_of_lt hrp)
            linarith }

theorem ddLoop_chain_zero : ∀ (v : List ℚ) (i rpi bpi bti : ℕ) (rp : ℚ),
    v.Pairwise (· < ·) → (∀ x ∈ v, rp < x) →
    (ddLoop ⟨rp, rpi, 0, bpi, bti⟩ i v).bestDd = 0 := by
  intro v
  induction v with
  | nil => intros; rfl
  | cons val rest ih =>
    intro i rpi bpi bti rp hp hx
    rw [List.pairwise_cons] at hp
    have hlt : rp < val := hx val (List.mem_cons_self _ _)
    have hstep : ddStep ⟨rp, rpi, 0, bpi, bti⟩ i val = ⟨val, i, 0, bpi, bti⟩ := by
      by_cases hv : 0 < val
      · simp [ddStep, hlt, hv, div_self (ne_of_gt hv)]
      · simp [ddStep, hlt, hv]
    have hloop : ddLoop (⟨rp, rpi, 0, bpi, bti⟩ : DDState) i (val :: rest) =
        ddLoop (ddStep ⟨rp, rpi, 0, bpi, bti⟩ i val) (i + 1) rest := rfl
    rw [hloop, hstep]
    exact ih (i + 1) i bpi bti val hp.2 hp.1

theorem ddStep_init (v0 : ℚ) :
    ddStep ⟨v0, 0, 0, 0, 0⟩ 0 v0 = ⟨v0, 0, 0, 0, 0⟩ := by
  by_cases hv : 0 < v0
  · simp [ddStep, lt_irrefl, hv, div_self (ne_of_gt hv)]
  · simp [ddStep, lt_irrefl, hv]

/-! ## Claim theorems over the rational-valued calculators -/

theorem driftRecordAt_asset {current target : Weights} {thr : ℚ} {a : String}
    {r : DriftRecord} (h : driftRecordAt current target thr a = some r) :
    r.asset = a := by
  unfold driftRecordAt at h
  dsimp only at h
  by_cases hcond : |getW current a - getW target a| + EPS < max thr 0
  · rw [if_pos hcond] at h
    exact Option.noConfusion h
  · rw [if_neg hcond] at h
    obtain rfl := Option.some.inj h
    rfl

theorem tradeRecordAt_asset {pv : ℚ} {current target : Weights} {a : String}
    {r : TradeRecord} (h : tradeRecordAt pv current target a = some r) :
    r.asset = a := by
  unfold tradeRecordAt at h
  dsimp only at h
  by_cases hcond : |pv * getW target a - pv * getW current a| ≤ EPS
  · rw [if_pos hcond] at h
    exact Option.noConfusion h
  · rw [if_neg hcond] at h
    obtain rfl := Option.some.inj h
    rfl

/-- C3: check_allocation_drift iterates the union of keys (missing keys
weight 0), includes a record exactly when |drift| + 1e-12 is not less than
max(threshold, 0) (so a drift exactly at the threshold is included), sets
action to sell when drift > 0 and buy otherwise, and returns the records
sorted descending by |drift| with stable order among ties (the pre-sort
order is strictly ascending by asset, so equal drifts appear in ascending
asset order); a None threshold is replaced by 0.05 (a non-finite float
threshold has no exact-arithmetic counterpart). -/
theorem C3_check_allocation_drift :
    (∀ current target, check_allocation_drift current target none =
        check_allocation_drift current target (some (5 / 100))) ∧
    (∀ current target thr (r : DriftRecord),
        r ∈ check_allocation_drift current target (some thr) ↔
          ((r.asset ∈ current.map Prod.fst ∨ r.asset ∈ target.map Prod.fst) ∧
           r.current_weight = getW current r.asset ∧
           r.target_weight = getW target r.asset ∧
           r.drift = getW current r.asset - getW target r.asset ∧
           r.amount = |r.drift| ∧
           r.action = (if 0 < r.drift then "sell" else "buy") ∧
           max thr 0 ≤ |r.drift| + EPS)) ∧
    (∀ current target thr,
        (check_allocation_drift current target (some thr)).Pairwise
          (fun x y => |y.drift| < |x.drift| ∨
            (|y.drift| = |x.drift| ∧ x.asset < y.asset))) := by
  refine ⟨fun current target => rfl, ?_, ?_⟩
  · intro current target thr r
    unfold check_allocation_drift
    dsimp only
    rw [Option.getD_some, (stableSort_perm _ _).mem_iff, List.mem_filterMap]
    constructor
    · rintro ⟨a, ha, hfa⟩
      have hmem := (mem_unionKeys current target a).mp ha
      unfold driftRecordAt at hfa
      dsimp only at hfa
      by_cases hcond : |getW current a - getW target a| + EPS < max thr 0
      · rw [if_pos hcond] at hfa
        exact Option.noConfusion hfa
      · rw [if_neg hcond] at hfa
        obtain rfl := Option.some.inj hfa
        exact ⟨hmem, rfl, rfl, rfl, rfl, rfl, not_lt.mp hcond⟩
    · rintro ⟨hmem, h1, h2, h3, h4, h5, h6⟩
      refine ⟨r.asset, (mem_unionKeys current target r.asset).mpr hmem, ?_⟩
      unfold driftRecordAt
      dsimp only
      have hcond : ¬ (|getW current r.asset - getW target r.asset| + EPS < max thr 0) := by
        rw [← h3]
        exact not_lt.mpr h6
      rw [if_neg hcond]
      obtain ⟨ra, rac, ram, rcw, rtw, rd⟩ := r
      dsimp only at h1 h2 h3 h4 h5 ⊢
      subst h1 h2 h3
      rw [h4, h5]
  · intro current target thr
    unfold check_allocation_drift
    dsimp only
    refine pairwise_stableSort (Q := fun x y : DriftRecord => x.asset < y.asset)
      ?_ ?_ _ ?_
    · rintro x y z (h | ⟨h1, h2⟩) (h' | ⟨h1', h2'⟩)
      · exact Or.inl (lt_trans h' h)
      · exact Or.inl (lt_of_le_of_lt (le_of_eq h1') h)
      · exact Or.inl (lt_of_lt_of_le h' (le_of_eq h1))
      · exact Or.inr ⟨h1'.trans h1, lt_trans h2 h2'⟩
    · intro x y hq
      constructor
      · intro hle
        rcases lt_or_eq_of_le (of_decide_eq_true hle) with h | h
        · exact Or.inl h
        · exact Or.inr ⟨h, hq⟩
      · intro hle
        exact Or.inl (not_le.mp (of_decide_eq_false hle))
    · refine List.Pairwise.filterMap _ ?_ (unionKeys_sorted current target)
      intro a a' hlt b hb b' hb'
      rw [driftRecordAt_asset (Option.mem_def.mp hb),
          driftRecordAt_asset (Option.mem_def.mp hb')]
      exact hlt

/-- C4: calculate_rebalance_trades returns the empty list for every
non-positive portfolio_value (the non-finite case has no exact-arithmetic
counterpart); otherwise over the union of keys it computes
trade_value = portfolio_value * (target_weight - current_weight), omits
entries with |trade_value| <= 1e-12, labels remaining entries buy when
trade_value > 0 and sell otherwise, and returns the list sorted descending
by absolute trade amount (stably, so ties appear in ascending asset
order). -/
theorem C4_calculate_rebalance_trades :
    (∀ pv current target, pv ≤ 0 → calculate_rebalance_trades pv current target = []) ∧
    (∀ pv current target (r : TradeRecord), 0 < pv →
        (r ∈ calculate_rebalance_trades pv current target ↔
          ((r.asset ∈ current.map Prod.fst ∨ r.asset ∈ target.map Prod.fst) ∧
           r.current_value = pv * getW current r.asset ∧
           r.target_value = pv * getW target r.asset ∧
           r.trade_value = pv * (getW target r.asset - getW current r.asset) ∧
           r.amount = |r.trade_value| ∧
           r.action = (if 0 < r.trade_value then "buy" else "sell") ∧
           EPS < |r.trade_value|))) ∧
    (∀ pv current target, (calculate_rebalance_trades pv current target).Pairwise
        (fun x y => y.amount < x.amount ∨ (y.amount = x.amount ∧ x.asset < y.asset))) := by
  refine ⟨?_, ?_, ?_⟩
  · intro pv current target hpv
    unfold calculate_rebalance_trades
    rw [if_pos hpv]
  · intro pv current target r hpv
    unfold calculate_rebalance_trades
    rw [if_neg (not_le.mpr hpv)]
    rw [(stableSort_perm _ _).mem_iff, List.mem_filterMap]
    constructor
    · rintro ⟨a, ha, hfa⟩
      have hmem := (mem_unionKeys current target a).mp ha
      unfold tradeRecordAt at hfa
      dsimp only at hfa
      by_cases hcond : |pv * getW target a - pv * getW current a| ≤ EPS
      · rw [if_pos hcond] at hfa
        exact Option.noConfusion hfa
      · rw [if_neg hcond] at hfa
        obtain rfl := Option.some.inj hfa
        refine ⟨hmem, rfl, rfl, ?_, rfl, rfl, not_le.mp hcond⟩
        dsimp only
        ring
    · rintro ⟨hmem, h1, h2, h3, h4, h5, h6⟩
      have h3' : r.trade_value = pv * getW target r.asset - pv * getW current r.asset := by
        rw [h3]; ring
      refine ⟨r.asset, (mem_unionKeys current target r.asset).mpr hmem, ?_⟩
      unfold tradeRecordAt
      dsimp only
      have hcond : ¬ (|pv * getW target r.asset - pv * getW current r.asset| ≤ EPS) := by
        rw [← h3']
        exact not_le.mpr h6
      rw [if_neg hcond]
      obtain ⟨ra, rac, ram, rcv, rtv, rtd⟩ := r
      dsimp only at h1 h2 h3' h4 h5 ⊢
      subst h1 h2 h3'
      rw [h4, h5]
  · intro pv current target
    unfold calculate_rebalance_trades
    by_cases hpv : pv ≤ 0
    · rw [if_pos hpv]
      exact List.Pairwise.nil
    · rw [if_neg hpv]
      refine pairwise_stableSort (Q := fun x y : TradeRecord => x.asset < y.asset)
        ?_ ?_ _ ?_
      · rintro x y z (h | ⟨h1, h2⟩) (h' | ⟨h1', h2'⟩)
        · exact Or.inl (lt_trans h' h)
        · exact Or.inl (lt_of_le_of_lt (le_of_eq h1') h)
        · exact Or.inl (lt_of_lt_of_le h' (le_of_eq h1))
        · exact Or.inr ⟨h1'.trans h1, lt_trans h2 h2'⟩
      · intro x y hq
        constructor
        · intro hle
          rcases lt_or_eq_of_le (of_decide_eq_true hle) with h | h
          · exact Or.inl h
          · exact Or.inr ⟨h, hq⟩
        · intro hle
          exact Or.inl (not_le.mp (of_decide_eq_false hle))
      · refine List.Pairwise.filterMap _ ?_ (unionKeys_sorted current target)
        intro a a' hlt b hb b' hb'
        rw [tradeRecordAt_asset (Option.mem_def.mp hb),
            tradeRecordAt_asset (Option.mem_def.mp hb')]
        exact hlt

/-- C7: for every win_rate in [0,1] and every finite win_loss_ratio b > 0,
kelly_criterion returns a value in [0,1] equal to 0.5 * (p - (1-p)/b)
unless that half-value is negative, in which case it returns 0; inputs
with b <= 0 yield 0.0 (a non-finite input has no exact-arithmetic
counterpart), and kelly_criterion(0.5, 1.0) = 0.0. -/
theorem C7_kelly_criterion :
    (∀ p b : ℚ, 0 ≤ p → p ≤ 1 → 0 < b →
        (0 ≤ kelly_criterion p b ∧ kelly_criterion p b ≤ 1) ∧
        kelly_criterion p b =
          (if 1 / 2 * (p - (1 - p) / b) < 0 then 0 else 1 / 2 * (p - (1 - p) / b))) ∧
    (∀ p b : ℚ, b ≤ 0 → kelly_criterion p b = 0) ∧
    kelly_criterion (1 / 2) 1 = 0 := by
  refine ⟨?_, ?_, by norm_num [kelly_criterion, clipQ]⟩
  · intro p b hp0 hp1 hb
    have hclip : clipQ p 0 1 = p := by
      unfold clipQ
      rw [max_eq_right hp0, min_eq_right hp1]
    unfold kelly_criterion
    rw [if_neg (not_le.mpr hb), hclip]
    dsimp only
    constructor
    · constructor
      · exact le_min (by norm_num) (le_max_left 0 _)
      · exact min_le_left 1 _
    · have hfrac : 0 ≤ (1 - p) / b := div_nonneg (by linarith) hb.le
      by_cases hneg : 1 / 2 * (p - (1 - p) / b) < 0
      · rw [if_pos hneg]
        unfold clipQ
        rw [max_eq_left hneg.le, min_eq_right (by norm_num : (0 : ℚ) ≤ 1)]
      · rw [if_neg hneg]
        have h2 : 1 / 2 * (p - (1 - p) / b) ≤ 1 := by linarith
        unfold clipQ
        rw [max_eq_right (not_lt.mp hneg), min_eq_right h2]
  · intro p b hb
    simp [kelly_criterion, hb]

/-- C8: detect_phase returns 2 whenever target <= 0 (the non-finite case
has no exact-arithmetic counterpart), and otherwise returns 1 exactly when
balance < target and 2 exactly when balance >= target; a balance exactly
equal to the target yields phase 2. -/
theorem C8_detect_phase (ef_balance ef_target : ℚ) :
    (ef_target ≤ 0 → detect_phase ef_balance ef_target = 2) ∧
    (0 < ef_target →
      (detect_phase ef_balance ef_target = 1 ↔ ef_balance < ef_target) ∧
      (detect_phase ef_balance ef_target = 2 ↔ ef_target ≤ ef_balance)) ∧
    (ef_balance = ef_target → detect_phase ef_balance ef_target = 2) ∧
    detect_phase 10000 36000 = 1 ∧
    detect_phase 36000 36000 = 2 := by
  refine ⟨?_, ?_, ?_, by decide, by decide⟩
  · intro h
    simp [detect_phase, h]
  · intro h
    rw [detect_phase, if_neg (not_le.mpr h)]
    by_cases hb : ef_balance < ef_target
    · simp [if_pos hb, hb, not_le.mpr hb]
    · simp [if_neg hb, hb, not_lt.mp hb]
  · intro h
    subst h
    by_cases h0 : ef_balance ≤ 0
    · simp [detect_phase, h0]
    · simp [detect_phase, h0, lt_irrefl]

/-- C9: allocation_target(1) is exactly the mapping
ef 0.80, stocks 0.10, crypto 0.10, allocation_target(2) is exactly
ef 0.20, stocks 0.50, crypto 0.20, bonds 0.10, and every other phase value
fails with the InvalidArgument error rather than returning a mapping. -/
theorem C9_get_allocation_target :
    get_allocation_target 1 =
      Except.ok [("ef", 80 / 100), ("stocks", 10 / 100), ("crypto", 10 / 100)] ∧
    get_allocation_target 2 =
      Except.ok [("ef", 20 / 100), ("stocks", 50 / 100), ("crypto", 20 / 100),
                 ("bonds", 10 / 100)] ∧
    (∀ phase : ℤ, phase ≠ 1 → phase ≠ 2 →
        get_allocation_target phase = Except.error "phase must be 1 or 2") := by
  refine ⟨?_, ?_, ?_⟩
  · simp [get_allocation_target, PHASE_1_TARGET]
  · simp [get_allocation_target, PHASE_2_TARGET]
  · intro phase h1 h2
    simp [get_allocation_target, h1, h2]

/-- C5: max_drawdown returns (0.0, -1, -1) for the empty series and
(0.0, 0, 0) for a single-element series; a strictly increasing series
yields max_dd = 0.0; and on [100, 50, 200, 190] the returned peak index is
0, the index of the running peak when the maximal drawdown was recorded,
not index 2 where the global maximum 200 sits. -/
theorem C5_calculate_max_drawdown :
    calculate_max_drawdown [] = (0, -1, -1) ∧
    (∀ x : ℚ, calculate_max_drawdown [x] = (0, 0, 0)) ∧
    (∀ v : List ℚ, List.Chain' (· < ·) v → (calculate_max_drawdown v).1 = 0) ∧
    calculate_max_drawdown [100, 50, 200, 190] = (1 / 2, 0, 1) := by
  refine ⟨rfl, fun x => rfl, ?_, by norm_num [calculate_max_drawdown, ddLoop, ddStep]⟩
  intro v hch
  match v with
  | [] => rfl
  | [x] => rfl
  | v0 :: v1 :: rest =>
    have hp := List.chain'_iff_pairwise.mp hch
    rw [List.pairwise_cons] at hp
    show (ddLoop ⟨v0, 0, 0, 0, 0⟩ 0 (v0 :: v1 :: rest)).bestDd = 0
    have hfirst : ddLoop (⟨v0, 0, 0, 0, 0⟩ : DDState) 0 (v0 :: v1 :: rest) =
        ddLoop (⟨v0, 0, 0, 0, 0⟩ : DDState) 1 (v1 :: rest) := by
      show ddLoop (ddStep ⟨v0, 0, 0, 0, 0⟩ 0 v0) 1 (v1 :: rest) = _
      rw [ddStep_init]
    rw [hfirst]
    exact ddLoop_chain_zero (v1 :: rest) 1 0 0 0 v0 hp.2 hp.1

/-- C10: for every non-empty series the triple returned by max_drawdown
satisfies max_dd >= 0, 0 <= peak_idx <= trough_idx < length, and when
every value is non-negative also max_dd <= 1. -/
theorem C10_max_drawdown_invariants (v : List ℚ) (h : v ≠ []) :
    0 ≤ (calculate_max_drawdown v).1 ∧
    0 ≤ (calculate_max_drawdown v).2.1 ∧
    (calculate_max_drawdown v).2.1 ≤ (calculate_max_drawdown v).2.2 ∧
    (calculate_max_drawdown v).2.2 < (v.length : ℤ) ∧
    ((∀ x ∈ v, 0 ≤ x) → (calculate_max_drawdown v).1 ≤ 1) := by
  cases v with
  | nil => exact absurd rfl h
  | cons v0 tl =>
    cases tl with
    | nil =>
      refine ⟨?_, ?_, ?_, ?_, ?_⟩ <;> simp [calculate_max_drawdown]
    | cons v1 rest =>
      obtain ⟨hdd, hpt, hlen⟩ :=
        ddLoop_inv (v0 :: v1 :: rest) 0 ⟨v0, 0, 0, 0, 0⟩ (le_refl 0)
          (Nat.le_refl 0) (Nat.le_refl 0) (Nat.le_refl 0)
      have hlen' := hlen (List.cons_ne_nil _ _)
      simp only [List.length_cons] at hlen'
      have hone := ddLoop_dd_le_one (v0 :: v1 :: rest) 0 ⟨v0, 0, 0, 0, 0⟩ (by norm_num)
      refine ⟨hdd, Int.natCast_nonneg _, ?_, ?_, hone⟩
      · show ((ddLoop ⟨v0, 0, 0, 0, 0⟩ 0 (v0 :: v1 :: rest)).bestPeakIdx : ℤ) ≤
            ((ddLoop ⟨v0, 0, 0, 0, 0⟩ 0 (v0 :: v1 :: rest)).bestTroughIdx : ℤ)
        exact_mod_cast hpt
      · show ((ddLoop ⟨v0, 0, 0, 0, 0⟩ 0 (v0 :: v1 :: rest)).bestTroughIdx : ℤ) <
            ((v0 :: v1 :: rest).length : ℤ)
        simp only [List.length_cons]
        omega

/-- Witness for C10 at the concrete series [3, 1, 2]. -/
theorem C10_max_drawdown_invariants_witness :
    0 ≤ (calculate_max_drawdown [3, 1, 2]).1 ∧
    0 ≤ (calculate_max_drawdown [3, 1, 2]).2.1 ∧
    (calculate_max_drawdown [3, 1, 2]).2.1 ≤ (calculate_max_drawdown [3, 1, 2]).2.2 ∧
    (calculate_max_drawdown [3, 1, 2]).2.2 < (([3, 1, 2] : List ℚ).length : ℤ) ∧
    ((∀ x ∈ ([3, 1, 2] : List ℚ), 0 ≤ x) → (calculate_max_drawdown [3, 1, 2]).1 ≤ 1) :=
  C10_max_drawdown_invariants [3, 1, 2] (by decide)

/-! ## Claim theorems over the real-valued risk metrics -/

/-- C1: in the exact-arithmetic model every numeric output of the core
operations is finite except the single documented sentinel: sharpe_ratio
(resp. sortino_ratio) is +infinity exactly when the series has at least 2
elements, the standard deviation (resp. downside deviation) of the excess
returns is zero and the mean excess return is positive; calculate_cagr and
calculate_volatility never produce the infinite sentinel, in particular
calculate_cagr is finite for every start_value > 0, end_value > 0,
years > 0. -/
theorem C1_finiteness :
    (∀ (returns : List ℝ) (rf : ℝ),
        calculate_sharpe_ratio returns rf = FVal.posInf ↔
          2 ≤ returns.length ∧
          stdSample (excessList returns
            (annual_to_periodic_rate rf TRADING_DAYS_PER_YEAR)) = 0 ∧
          0 < meanR (excessList returns
            (annual_to_periodic_rate rf TRADING_DAYS_PER_YEAR))) ∧
    (∀ (returns : List ℝ) (rf : ℝ),
        calculate_sortino_ratio returns rf = FVal.posInf ↔
          2 ≤ returns.length ∧
          downsideDev (excessList returns
            (annual_to_periodic_rate rf TRADING_DAYS_PER_YEAR)) = 0 ∧
          0 < meanR (excessList returns
            (annual_to_periodic_rate rf TRADING_DAYS_PER_YEAR))) ∧
    (∀ start_value end_value years : ℝ,
        (calculate_cagr start_value end_value years).isFinite) ∧
    (∀ returns : List ℝ, (calculate_volatility returns).isFinite) := by
  refine ⟨?_, ?_, ?_, ?_⟩
  · intro returns rf
    unfold calculate_sharpe_ratio
    dsimp only
    split_ifs with h1 h2 h3
    · constructor
      · intro h; exact h.elim
      · rintro ⟨hlen, -, -⟩; omega
    · exact ⟨fun _ => ⟨by omega, h2, h3⟩, fun _ => rfl⟩
    · constructor
      · intro h; exact h.elim
      · rintro ⟨-, -, hm⟩; exact absurd hm h3
    · constructor
      · intro h; exact h.elim
      · rintro ⟨-, hs, -⟩; exact absurd hs h2
  · intro returns rf
    unfold calculate_sortino_ratio
    dsimp only
    split_ifs with h1 h2 h3
    · constructor
      · intro h; exact h.elim
      · rintro ⟨hlen, -, -⟩; omega
    · exact ⟨fun _ => ⟨by omega, h2, h3⟩, fun _ => rfl⟩
    · constructor
      · intro h; exact h.elim
      · rintro ⟨-, -, hm⟩; exact absurd hm h3
    · constructor
      · intro h; exact h.elim
      · rintro ⟨-, hs, -⟩; exact absurd hs h2
  · intro start_value end_value years
    unfold calculate_cagr
    split_ifs <;> trivial
  · intro returns
    unfold calculate_volatility
    split_ifs <;> trivial

/-- C2: for every returns list with at least 2 elements and every
risk-free rate, sharpe_ratio subtracts the compound per-period rate
(1+annual)^(1/252) - 1 (0 when annual <= -1, and 0 when the period count
is 0), takes the sample mean and the Bessel-corrected (N-1 denominator)
sample standard deviation of the excess returns, returns +infinity when
the standard deviation is 0 with positive mean excess, 0 when it is 0 with
non-positive mean excess, and otherwise sqrt(252) * mean / std; for fewer
than 2 elements it returns 0. -/
theorem C2_sharpe_ratio_spec :
    (∀ (returns : List ℝ) (rf : ℝ),
        calculate_sharpe_ratio returns rf =
          if returns.length < 2 then FVal.fin 0
          else
            let per := if rf ≤ -1 then 0 else (1 + rf) ^ ((1 : ℝ) / 252) - 1
            let ex := returns.map (fun x => x - per)
            let m := ex.sum / (ex.length : ℝ)
            let s := Real.sqrt ((ex.map (fun x => (x - m) ^ 2)).sum /
              ((ex.length : ℝ) - 1))
            if s = 0 then (if 0 < m then FVal.posInf else FVal.fin 0)
            else FVal.fin (Real.sqrt 252 * m / s)) ∧
    (∀ a : ℝ, annual_to_periodic_rate a 0 = 0) := by
  constructor
  · intro returns rf
    simp only [calculate_sharpe_ratio, annual_to_periodic_rate, excessList,
      meanR, stdSample, TRADING_DAYS_PER_YEAR]
    norm_num
  · intro a
    unfold annual_to_periodic_rate
    norm_num

/-- C6: for every returns list with at least 2 elements, sortino_ratio
computes its downside deviation as sqrt(mean(min(0, excess)^2)) with the
population denominator N (the formula below divides by N, where
sharpe_ratio's standard deviation divides by N - 1), and when the downside
deviation is 0 it applies the same policy as Sharpe: +infinity when the
mean excess is positive, otherwise 0. -/
theorem C6_sortino_ratio_spec :
    ∀ (returns : List ℝ) (rf : ℝ),
      calculate_sortino_ratio returns rf =
        if returns.length < 2 then FVal.fin 0
        else
          let per := if rf ≤ -1 then 0 else (1 + rf) ^ ((1 : ℝ) / 252) - 1
          let ex := returns.map (fun x => x - per)
          let m := ex.sum / (ex.length : ℝ)
          let dd := Real.sqrt ((ex.map (fun x => min 0 x ^ 2)).sum / (ex.length : ℝ))
          if dd = 0 then (if 0 < m then FVal.posInf else FVal.fin 0)
          else FVal.fin (Real.sqrt 252 * m / dd) := by
  intro returns rf
  simp only [calculate_sortino_ratio, annual_to_periodic_rate, excessList,
    meanR, downsideDev, TRADING_DAYS_PER_YEAR]
  norm_num

end Invest
